import Mathlib

/-!
Verification of the Weave-Toolkit MCP server core against its
natural-language specification.

The development shallowly embeds the Go source of the repository:
  - internal/mcp/server.go : ConnectionPool, graceful shutdown, the
    stream dispatcher (handleStreamToolsCall);
  - the categorized ToolManager (RegisterTool, Enable/DisableCategory,
    GetTools, CallTool, CallToolStream);
  - internal/tools/stream_text_processor.go : parseArguments, Execute,
    ExecuteStream.

Go maps are embedded as association lists; Go `context` deadlines as
`Option Nat` (absolute time in abstract ticks); fallible Go functions
as `Except String`; the mutex-guarded stateful objects as pure state
transformers applied along an operation sequence (sequential semantics
of the critical sections).
-/

namespace WeaveToolkit

/-! ## ConnectionPool (internal/mcp/server.go)

State of a pool: the buffered channel `pool` is embedded by the number
`idle` of handles currently sitting in it (its capacity is `maxSize`),
and the `active` counter is an integer, exactly as in the source where
`Release` decrements it unconditionally. -/

structure ConnectionPool where
  maxSize : Nat
  active : Int
  idle : Nat
  deriving Repr, DecidableEq

/-- `NewConnectionPool` : fresh pool, empty channel, `active = 0`. -/
def NewConnectionPool (maxSize : Nat) : ConnectionPool :=
  { maxSize := maxSize, active := 0, idle := 0 }

/-- Outcome of `ConnectionPool.Acquire`: a handle taken from the idle
channel, a freshly created handle, or the pool-exhausted error
(`"connection pool exhausted, max size: %d"`). -/
inductive AcquireResult where
  | reused
  | created
  | exhausted
  deriving Repr, DecidableEq

/-- `ConnectionPool.Acquire`: the `select` takes a handle from the
channel when one is buffered (then increments `active`); on the
`default` branch it fails if `active >= maxSize` and otherwise creates
a new handle and increments `active`. -/
def ConnectionPool.Acquire (cp : ConnectionPool) : ConnectionPool × AcquireResult :=
  if 0 < cp.idle then
    ({ cp with idle := cp.idle - 1, active := cp.active + 1 }, .reused)
  else if (cp.maxSize : Int) ≤ cp.active then
    (cp, .exhausted)
  else
    ({ cp with active := cp.active + 1 }, .created)

/-- `ConnectionPool.Release`: the `select` puts the handle back on the
channel when the buffer has room (`idle < maxSize`), otherwise discards
it; both branches decrement `active`. -/
def ConnectionPool.Release (cp : ConnectionPool) : ConnectionPool :=
  if cp.idle < cp.maxSize then
    { cp with idle := cp.idle + 1, active := cp.active - 1 }
  else
    { cp with active := cp.active - 1 }

/-- An operation on the pool, for quantifying over call sequences. -/
inductive PoolOp where
  | acquire
  | release
  deriving Repr, DecidableEq

def ConnectionPool.applyOp (cp : ConnectionPool) : PoolOp → ConnectionPool
  | .acquire => cp.Acquire.1
  | .release => cp.Release

def runPool (cp : ConnectionPool) (ops : List PoolOp) : ConnectionPool :=
  ops.foldl ConnectionPool.applyOp cp

/-- Inductive invariant of the pool: handles out plus handles idle
never exceed the capacity. -/
def ConnectionPool.Bounded (cp : ConnectionPool) : Prop :=
  cp.active + (cp.idle : Int) ≤ (cp.maxSize : Int)

theorem ConnectionPool.Bounded.applyOp {cp : ConnectionPool} (h : cp.Bounded)
    (op : PoolOp) : (cp.applyOp op).Bounded := by
  cases op with
  | acquire =>
    unfold ConnectionPool.applyOp ConnectionPool.Acquire
    by_cases h1 : 0 < cp.idle
    · simp only [h1, if_true]
      unfold ConnectionPool.Bounded at h ⊢
      simp only
      have : ((cp.idle - 1 : Nat) : Int) = (cp.idle : Int) - 1 := by
        omega
      omega
    · simp only [h1, if_false]
      by_cases h2 : (cp.maxSize : Int) ≤ cp.active
      · simp only [h2, if_true]
        exact h
      · simp only [h2, if_false]
        unfold ConnectionPool.Bounded at h ⊢
        simp only
        omega
  | release =>
    unfold ConnectionPool.applyOp ConnectionPool.Release
    by_cases h1 : cp.idle < cp.maxSize
    · simp only [h1, if_true]
      unfold ConnectionPool.Bounded at h ⊢
      simp only
      push_cast
      omega
    · simp only [h1, if_false]
      unfold ConnectionPool.Bounded at h ⊢
      simp only
      omega

theorem foldl_Bounded (ops : List PoolOp) :
    ∀ cp : ConnectionPool, cp.Bounded →
      (ops.foldl ConnectionPool.applyOp cp).Bounded := by
  induction ops with
  | nil => intro cp hcp; exact hcp
  | cons o r ihr =>
    intro cp hcp
    exact ihr (cp.applyOp o) (hcp.applyOp o)

theorem runPool_Bounded (m : Nat) (ops : List PoolOp) :
    (runPool (NewConnectionPool m) ops).Bounded := by
  have h0 : (NewConnectionPool m).Bounded := by
    unfold ConnectionPool.Bounded NewConnectionPool
    simp
  exact foldl_Bounded ops _ h0

theorem ConnectionPool.applyOp_maxSize (cp : ConnectionPool) (op : PoolOp) :
    (cp.applyOp op).maxSize = cp.maxSize := by
  cases op with
  | acquire =>
    unfold ConnectionPool.applyOp ConnectionPool.Acquire
    by_cases h1 : 0 < cp.idle <;> by_cases h2 : (cp.maxSize : Int) ≤ cp.active <;>
      simp [h1, h2]
  | release =>
    unfold ConnectionPool.applyOp ConnectionPool.Release
    by_cases h1 : cp.idle < cp.maxSize <;> simp [h1]

theorem runPool_maxSize (m : Nat) (ops : List PoolOp) :
    (runPool (NewConnectionPool m) ops).maxSize = m := by
  unfold runPool
  have : ∀ (l : List PoolOp) (cp : ConnectionPool),
      (l.foldl ConnectionPool.applyOp cp).maxSize = cp.maxSize := by
    intro l
    induction l with
    | nil => intro cp; rfl
    | cons o r ihr =>
      intro cp
      rw [List.foldl_cons, ihr, ConnectionPool.applyOp_maxSize]
  rw [this]
  rfl

/-- **C1.** For every sequence of ConnectionPool operations starting
from a fresh pool of capacity `maxSize`, the `active` counter never
exceeds `maxSize`; `Acquire` returns an idle handle when the idle set
is non-empty, otherwise creates a new handle exactly when
`active < maxSize` and fails with the pool-exhausted error when
`active ≥ maxSize`; every successful `Acquire` increments `active` and
every `Release` decrements it. -/
theorem C1_connection_pool_invariant (m : Nat) (ops : List PoolOp)
    (cp : ConnectionPool) :
    (runPool (NewConnectionPool m) ops).active ≤ (m : Int)
    ∧ (0 < cp.idle →
        cp.Acquire =
          ({ cp with idle := cp.idle - 1, active := cp.active + 1 }, .reused))
    ∧ (cp.idle = 0 → cp.active < (cp.maxSize : Int) →
        cp.Acquire = ({ cp with active := cp.active + 1 }, .created))
    ∧ (cp.idle = 0 → (cp.maxSize : Int) ≤ cp.active →
        cp.Acquire = (cp, .exhausted))
    ∧ cp.Release.active = cp.active - 1 := by
  refine ⟨?_, ?_, ?_, ?_, ?_⟩
  · have hb := runPool_Bounded m ops
    have hm := runPool_maxSize m ops
    unfold ConnectionPool.Bounded at hb
    rw [hm] at hb
    omega
  · intro h1
    unfold ConnectionPool.Acquire
    simp [h1]
  · intro h1 h2
    unfold ConnectionPool.Acquire
    simp only [h1, lt_irrefl, if_false, not_le.mpr h2, if_false]
  · intro h1 h2
    unfold ConnectionPool.Acquire
    simp only [h1, lt_irrefl, if_false, h2, if_true]
  · unfold ConnectionPool.Release
    by_cases h1 : cp.idle < cp.maxSize <;> simp [h1]

/-- Concrete witness for C1: a fresh pool of capacity 1 stays within
bound over acquire/acquire/release, and each branch of `Acquire` and
`Release` behaves as stated at an explicit pool state. -/
theorem C1_connection_pool_invariant_witness :
    (runPool (NewConnectionPool 1) [.acquire, .acquire, .release]).active ≤ (1 : Int)
    ∧ (ConnectionPool.mk 2 1 1).Acquire = (ConnectionPool.mk 2 2 0, .reused)
    ∧ (ConnectionPool.mk 2 1 0).Acquire = (ConnectionPool.mk 2 2 0, .created)
    ∧ (ConnectionPool.mk 2 2 0).Acquire = (ConnectionPool.mk 2 2 0, .exhausted)
    ∧ (ConnectionPool.mk 2 1 0).Release.active = 0 := by
  refine ⟨(C1_connection_pool_invariant 1 [.acquire, .acquire, .release]
      (ConnectionPool.mk 2 1 1)).1, ?_, ?_, ?_, ?_⟩
  · exact (C1_connection_pool_invariant 0 [] (ConnectionPool.mk 2 1 1)).2.1
      (by decide)
  · exact (C1_connection_pool_invariant 0 [] (ConnectionPool.mk 2 1 0)).2.2.1
      (by decide) (by decide)
  · exact (C1_connection_pool_invariant 0 [] (ConnectionPool.mk 2 2 0)).2.2.2.1
      (by decide) (by decide)
  · have h := (C1_connection_pool_invariant 0 [] (ConnectionPool.mk 2 1 0)).2.2.2.2
    simpa using h

/-! ## Graceful shutdown (internal/mcp/server.go)

`Server.Stop` sets `shuttingDown` under the write lock, waits for the
`activeOps` wait group bounded by a 30 second grace period, then closes
the transport.  `handleMCPRequest` and `handleMCPStreamRequest` both
begin by reading the flag under the read lock and answer 503 before
touching `activeOps` when it is set; only admitted requests perform
`activeOps.Add(1)` / `defer Done()`.  The lifecycle is embedded as a
labelled transition system: `elapsed` counts abstract seconds since the
stop signal. -/

inductive Phase where
  | running
  | draining
  | stopped
  deriving Repr, DecidableEq

structure ServerState where
  phase : Phase
  inflight : Nat
  elapsed : Nat
  deriving Repr, DecidableEq

/-- The 30 second bound on `Server.Stop` waiting for `activeOps`. -/
def gracePeriod : Nat := 30

/-- `Server.isShuttingDown`: the flag is set from the stop signal on. -/
def ServerState.isShuttingDown (s : ServerState) : Bool :=
  match s.phase with
  | .running => false
  | _ => true

inductive Admission where
  | admitted
  | serviceUnavailable
  deriving Repr, DecidableEq

/-- Admission prefix shared by `handleMCPRequest` and
`handleMCPStreamRequest`: a 503 without touching `activeOps` when the
flag is set, otherwise `activeOps.Add(1)`. -/
def admitRequest (s : ServerState) : ServerState × Admission :=
  if s.isShuttingDown then (s, .serviceUnavailable)
  else ({ s with inflight := s.inflight + 1 }, .admitted)

/-- Transitions of the server lifecycle: a request arrives (and is
admitted or rejected), an admitted request completes
(`activeOps.Done`), the stop signal fires, a second of the drain
elapses, or `Stop` finishes draining — which the source permits exactly
when the wait group is empty or the grace period has elapsed. -/
inductive ServerStep : ServerState → ServerState → Prop where
  | arrive (s : ServerState) : ServerStep s (admitRequest s).1
  | complete (s : ServerState) (h : 0 < s.inflight) :
      ServerStep s { s with inflight := s.inflight - 1 }
  | beginShutdown (s : ServerState) (h : s.phase = .running) :
      ServerStep s { s with phase := .draining, elapsed := 0 }
  | tick (s : ServerState) (h : s.phase = .draining) :
      ServerStep s { s with elapsed := s.elapsed + 1 }
  | finishShutdown (s : ServerState) (h : s.phase = .draining)
      (hdone : s.inflight = 0 ∨ gracePeriod ≤ s.elapsed) :
      ServerStep s { s with phase := .stopped }

theorem ServerStep.ticks (n : Nat) (s : ServerState) (h : s.phase = .draining) :
    Relation.ReflTransGen ServerStep s { s with elapsed := s.elapsed + n } := by
  induction n with
  | zero =>
    have he : ({ s with elapsed := s.elapsed + 0 } : ServerState) = s := by
      cases s
      simp
    rw [he]
  | succ k ih =>
    refine Relation.ReflTransGen.tail ih ?_
    have := ServerStep.tick { s with elapsed := s.elapsed + k } h
    simpa [Nat.add_assoc] using this

/-- **C2.** Once the shutdown flag is set, every request is rejected
with ServiceUnavailable and the state (in particular the in-flight
counter) is untouched; the flag is never cleared again; a transition
into Stopped is possible only from Draining and only when the in-flight
counter is zero or the grace period has elapsed; and from every
Draining state the Stopped phase is reachable. -/
theorem C2_shutdown_drains (s t : ServerState) :
    (s.isShuttingDown = true → admitRequest s = (s, .serviceUnavailable))
    ∧ (ServerStep s t → s.isShuttingDown = true → t.isShuttingDown = true)
    ∧ (ServerStep s t → s.phase ≠ .stopped → t.phase = .stopped →
        s.phase = .draining ∧ (s.inflight = 0 ∨ gracePeriod ≤ s.elapsed))
    ∧ (s.phase = .draining →
        ∃ u, Relation.ReflTransGen ServerStep s u ∧ u.phase = .stopped) := by
  refine ⟨?_, ?_, ?_, ?_⟩
  · intro h
    unfold admitRequest
    simp [h]
  · intro hstep h
    cases hstep with
    | arrive =>
      unfold admitRequest
      simp [h]
    | complete hc => exact h
    | beginShutdown hr =>
      unfold ServerState.isShuttingDown
      simp
    | tick hd => exact h
    | finishShutdown hd hdone =>
      unfold ServerState.isShuttingDown
      simp
  · intro hstep hns hstop
    cases hstep with
    | arrive =>
      exfalso
      apply hns
      unfold admitRequest at hstop
      by_cases h1 : s.isShuttingDown <;> simpa [h1] using hstop
    | complete hc => exact absurd hstop hns
    | beginShutdown hr => simp at hstop
    | tick hd => exact absurd hstop hns
    | finishShutdown hd hdone => exact ⟨hd, hdone⟩
  · intro hd
    refine ⟨{ s with elapsed := s.elapsed + gracePeriod, phase := .stopped }, ?_, rfl⟩
    refine Relation.ReflTransGen.tail (ServerStep.ticks gracePeriod s hd) ?_
    exact ServerStep.finishShutdown _ hd (Or.inr (by simp))

/-- Concrete witness for C2: from a draining state with one in-flight
operation every new request is rejected without touching the counter,
rejection persists across a completion step, stopping from that state
requires the drain condition, and Stopped is reachable. -/
theorem C2_shutdown_drains_witness :
    (admitRequest (ServerState.mk .draining 1 0) =
      (ServerState.mk .draining 1 0, .serviceUnavailable))
    ∧ ((ServerState.mk .draining 1 0).isShuttingDown = true →
        (ServerState.mk .draining 0 0).isShuttingDown = true)
    ∧ ((ServerState.mk .draining 1 0).phase = .draining ∧
        ((ServerState.mk .draining 1 0).inflight = 0 ∨
          gracePeriod ≤ (ServerState.mk .draining 1 0).elapsed) →
        (ServerState.mk .draining 1 0).inflight = 0 ∨
          gracePeriod ≤ (ServerState.mk .draining 1 0).elapsed)
    ∧ (∃ u, Relation.ReflTransGen ServerStep (ServerState.mk .draining 1 0) u ∧
        u.phase = .stopped) := by
  refine ⟨?_, ?_, fun h => h.2, ?_⟩
  · exact (C2_shutdown_drains (ServerState.mk .draining 1 0)
      (ServerState.mk .draining 1 0)).1 (by decide)
  · intro h
    exact (C2_shutdown_drains (ServerState.mk .draining 1 0)
      (ServerState.mk .draining 0 0)).2.1
      (ServerStep.complete _ (by decide)) h
  · exact (C2_shutdown_drains (ServerState.mk .draining 1 0)
      (ServerState.mk .draining 1 0)).2.2.2 rfl

/-! ## JSON values

Decoded JSON (Go `interface{}` after `json.Unmarshal`).  The embedding
works at the level of decoded values: a `json.RawMessage` argument is
represented by the `JValue` it decodes to. -/

inductive JValue where
  | null
  | bool (b : Bool)
  | num (n : Int)
  | str (s : String)
  | arr (elems : List JValue)
  | obj (fields : List (String × JValue))

/-- Go type assertion `.(map[string]interface{})`. -/
def JValue.asObj : JValue → Option (List (String × JValue))
  | .obj fs => some fs
  | _ => none

/-- Go type assertion `.(string)`. -/
def JValue.asStr : JValue → Option String
  | .str s => some s
  | _ => none

/-! ## Association-list embedding of Go maps

Go `map[string]V` (and `map[ToolCategory]V`, `ToolCategory` being a
string type) is embedded as an association list with unique keys; a
well-formedness predicate carries the uniqueness.  Go map iteration
order is unspecified; the list fixes one order, and every property
proved below is independent of that choice. -/

def assocFind {β : Type _} : List (String × β) → String → Option β
  | [], _ => none
  | (a, b) :: rest, k => if a = k then some b else assocFind rest k

/-- Overwrite the value stored under an existing key. -/
def assocUpdate {β : Type _} (l : List (String × β)) (k : String) (v : β) :
    List (String × β) :=
  l.map fun p => if p.1 = k then (k, v) else p

/-- Go `m[k] = v`: overwrite when present, append when absent. -/
def assocInsert {β : Type _} (l : List (String × β)) (k : String) (v : β) :
    List (String × β) :=
  if (assocFind l k).isSome then assocUpdate l k v else l ++ [(k, v)]

/-! ## The categorized ToolManager (duplicated-variant src/internal/mcp/server.go,
package tools) -/

/-- `type ToolCategory string` in the source. -/
abbrev ToolCategory := String

def CategoryMath : ToolCategory := "math"
def CategoryAI : ToolCategory := "ai"
def CategorySystem : ToolCategory := "system"
def CategoryUtility : ToolCategory := "utility"

structure CategoryConfig where
  Enabled : Bool
  MaxTools : Nat
  RateLimit : Nat
  Timeout : Nat
  deriving Repr, DecidableEq

/-- The `Tool` interface plus the optional `StreamTool` refinement: the
`execStream` field is `some` exactly when the dynamic type assertion
`tool.(StreamTool)` succeeds.  `exec` takes the context deadline
(absolute, `none` = unbounded) and the decoded arguments and returns
the raw response bytes or an error. -/
structure Tool where
  name : String
  description : String
  category : ToolCategory
  exec : Option Nat → JValue → Except String String
  execStream : Option (Option Nat → JValue → List (String × Nat) × Except String String)

structure CategoryManager where
  tools : List (String × Tool)
  enabled : Bool
  config : CategoryConfig

structure ToolManager where
  categories : List (ToolCategory × CategoryManager)

structure ToolInfo where
  Name : String
  Description : String
  Category : ToolCategory
  Enabled : Bool
  deriving Repr, DecidableEq

structure ToolCallContent where
  type : String
  text : String
  deriving Repr, DecidableEq

structure ToolCallResult where
  Content : List ToolCallContent
  deriving Repr, DecidableEq

/-- `ToolManager.RegisterTool`: category lookup, enablement check,
capacity check (`len(tools) >= MaxTools`), then map insertion which
overwrites an existing entry of the same name. -/
def ToolManager.RegisterTool (tm : ToolManager) (tool : Tool) :
    Except String ToolManager :=
  match assocFind tm.categories tool.category with
  | none => .error ("category not found: " ++ tool.category)
  | some cm =>
    if cm.enabled = false then
      .error ("category is disabled: " ++ tool.category)
    else if cm.config.MaxTools ≤ cm.tools.length then
      .error ("category " ++ tool.category ++ " reached maximum tools limit: "
        ++ toString cm.config.MaxTools)
    else
      .ok ⟨assocUpdate tm.categories tool.category
        { cm with tools := assocInsert cm.tools tool.name tool }⟩

def ToolManager.EnableCategory (tm : ToolManager) (c : ToolCategory) :
    Except String ToolManager :=
  match assocFind tm.categories c with
  | none => .error ("category not found: " ++ c)
  | some cm => .ok ⟨assocUpdate tm.categories c { cm with enabled := true }⟩

def ToolManager.DisableCategory (tm : ToolManager) (c : ToolCategory) :
    Except String ToolManager :=
  match assocFind tm.categories c with
  | none => .error ("category not found: " ++ c)
  | some cm => .ok ⟨assocUpdate tm.categories c { cm with enabled := false }⟩

/-- `ToolManager.GetTools`: skips disabled categories, lists every tool
of the enabled ones. -/
def ToolManager.GetTools (tm : ToolManager) : List ToolInfo :=
  (tm.categories.filter fun p => p.2.enabled).flatMap
    fun p => p.2.tools.map fun t =>
      ⟨t.2.name, t.2.description, t.2.category, true⟩

/-- The lookup loop shared by `CallTool` and `CallToolStream`: scan the
categories, skip disabled ones, take the first one whose map contains
`name` (the source also keeps the category, used afterwards to read the
timeout configuration). -/
def findToolIn : List (ToolCategory × CategoryManager) → String →
    Option (Tool × CategoryManager)
  | [], _ => none
  | (_, cm) :: rest, name =>
    if cm.enabled then
      match assocFind cm.tools name with
      | some t => some (t, cm)
      | none => findToolIn rest name
    else findToolIn rest name

/-- Go `context.WithTimeout(parent, d)`: the resulting deadline is
`now + d`, capped by the parent deadline when the parent has an earlier
one. -/
def contextWithTimeout (deadline : Option Nat) (now : Nat) (d : Nat) : Option Nat :=
  match deadline with
  | some c => some (min c (now + d))
  | none => some (now + d)

/-- The guard in `CallTool` / `CallToolStream`: the category timeout is
applied only when it is positive. -/
def applyCategoryTimeout (deadline : Option Nat) (now : Nat) (timeout : Nat) :
    Option Nat :=
  if 0 < timeout then contextWithTimeout deadline now timeout else deadline

/-- `ToolManager.CallTool`: resolve in enabled categories, apply the
category timeout, execute, and wrap success in the uniform
`content[0] = (type "text", text = raw bytes)` envelope. -/
def ToolManager.CallTool (tm : ToolManager) (now : Nat) (deadline : Option Nat)
    (name : String) (args : JValue) : Except String ToolCallResult :=
  match findToolIn tm.categories name with
  | none => .error ("tool not found: " ++ name)
  | some (tool, cm) =>
    let ctx := applyCategoryTimeout deadline now cm.config.Timeout
    match tool.exec ctx args with
    | .error e => .error e
    | .ok result => .ok ⟨[⟨"text", result⟩]⟩

/-- `ToolManager.CallToolStream`: same resolution; when the tool does
not implement `StreamTool` it falls back to `CallTool` (no callback
invocation); otherwise it runs `ExecuteStream` under the composed
deadline and wraps the result in the same envelope.  The second
component collects the `(content, index)` callback invocations. -/
def ToolManager.CallToolStream (tm : ToolManager) (now : Nat)
    (deadline : Option Nat) (name : String) (args : JValue) :
    Except String ToolCallResult × List (String × Nat) :=
  match findToolIn tm.categories name with
  | none => (.error ("tool not found: " ++ name), [])
  | some (tool, cm) =>
    match tool.execStream with
    | none => (tm.CallTool now deadline name args, [])
    | some es =>
      let ctx := applyCategoryTimeout deadline now cm.config.Timeout
      let r := es ctx args
      match r.2 with
      | .error e => (.error e, r.1)
      | .ok result => (.ok ⟨[⟨"text", result⟩]⟩, r.1)

/-! ## Stream dispatcher and error envelopes (internal/mcp/server.go) -/

/-- Events written by `sendStreamEvent` during one streaming call:
`tool/call` (status "started"), `content`, `done`, `error`. -/
inductive SEvent where
  | toolCall (tool : String)
  | content (text : String) (index : Nat)
  | done (result : ToolCallResult)
  | error (message : String)

/-- The two terminal event kinds. -/
def SEvent.isTerminal : SEvent → Bool
  | .done _ => true
  | .error _ => true
  | _ => false

/-- `Server.handleStreamToolsCall`, taking the decoded request body.
Parameter-validation failures go through `sendStreamError`, i.e. a
single `error` event.  On a valid request: the started event, one
`content` event per callback invocation of `CallToolStream` (in
emission order), then exactly one of `error`/`done`.
(`json.Marshal(params["arguments"])` cannot fail on a value produced by
`json.Unmarshal`, so the marshalling branch is not a case here; absent
arguments marshal to JSON `null`.) -/
def handleStreamToolsCall (tm : ToolManager) (now : Nat)
    (deadline : Option Nat) (req : List (String × JValue)) : List SEvent :=
  match (assocFind req "params").bind JValue.asObj with
  | none => [.error "Invalid params"]
  | some params =>
    match (assocFind params "name").bind JValue.asStr with
    | none => [.error "Missing or invalid tool name"]
    | some toolName =>
      let arguments := (assocFind params "arguments").getD .null
      let call := tm.CallToolStream now deadline toolName arguments
      .toolCall toolName ::
        (call.2.map fun e => .content e.1 e.2) ++
        [match call.1 with
         | .error e => .error e
         | .ok result => .done result]

structure ErrorEnvelope where
  code : Int
  message : String
  deriving Repr, DecidableEq

/-- The `tools/call` path of `handleMCPRequest`: `handleToolsCall`
delegates to `CallTool`; an error is answered by
`sendErrorResponse(err.Error(), -32603)`, i.e. an error envelope whose
message is the error string verbatim. -/
def toolsCallResponse (tm : ToolManager) (now : Nat) (deadline : Option Nat)
    (name : String) (args : JValue) : ErrorEnvelope ⊕ ToolCallResult :=
  match tm.CallTool now deadline name args with
  | .error e => .inl ⟨-32603, e⟩
  | .ok r => .inr r

/-! ## Sample objects used by the concrete witnesses -/

def sampleTool : Tool :=
  { name := "t1", description := "d1", category := CategoryMath,
    exec := fun _ _ => .ok "ok", execStream := none }

def sampleStreamTool : Tool :=
  { name := "t2", description := "d2", category := CategoryUtility,
    exec := fun _ _ => .ok "ok2",
    execStream := some fun _ _ => ([("chunk", 0)], .ok "ok2") }

def sampleConfig : CategoryConfig :=
  { Enabled := true, MaxTools := 1, RateLimit := 0, Timeout := 0 }

def emptyMathTM : ToolManager :=
  ⟨[(CategoryMath, { tools := [], enabled := true, config := sampleConfig })]⟩

def disabledMathTM : ToolManager :=
  ⟨[(CategoryMath, { tools := [], enabled := false, config := sampleConfig })]⟩

def fullMathCM : CategoryManager :=
  { tools := [(sampleTool.name, sampleTool)], enabled := true,
    config := sampleConfig }

def fullMathTM : ToolManager :=
  ⟨[(CategoryMath, fullMathCM)]⟩

/-- **C6.** `RegisterTool` fails with the category-not-found error when
the declared category is unknown, with the category-disabled error when
it is disabled, and with the category-full error when it already holds
its configured maximum tool count; registering into an enabled, known
category holding one fewer tool than the maximum always succeeds. -/
theorem C6_register_error_cases (tm : ToolManager) (tool : Tool) :
    (assocFind tm.categories tool.category = none →
      tm.RegisterTool tool = .error ("category not found: " ++ tool.category))
    ∧ (∀ cm, assocFind tm.categories tool.category = some cm →
        cm.enabled = false →
        tm.RegisterTool tool = .error ("category is disabled: " ++ tool.category))
    ∧ (∀ cm, assocFind tm.categories tool.category = some cm →
        cm.enabled = true → cm.config.MaxTools ≤ cm.tools.length →
        tm.RegisterTool tool = .error ("category " ++ tool.category
          ++ " reached maximum tools limit: " ++ toString cm.config.MaxTools))
    ∧ (∀ cm, assocFind tm.categories tool.category = some cm →
        cm.enabled = true → cm.tools.length + 1 = cm.config.MaxTools →
        ∃ tm₁, tm.RegisterTool tool = .ok tm₁) := by
  refine ⟨?_, ?_, ?_, ?_⟩
  · intro h
    unfold ToolManager.RegisterTool
    rw [h]
  · intro cm h he
    unfold ToolManager.RegisterTool
    rw [h]
    simp [he]
  · intro cm h he hfull
    unfold ToolManager.RegisterTool
    rw [h]
    simp [he, hfull]
  · intro cm h he hone
    unfold ToolManager.RegisterTool
    rw [h]
    have hlt : ¬ cm.config.MaxTools ≤ cm.tools.length := by omega
    simp [he, hlt]

/-- Concrete witness for C6: each error branch and the
one-below-maximum success at explicit registries. -/
theorem C6_register_error_cases_witness :
    (ToolManager.mk []).RegisterTool sampleTool =
      .error "category not found: math"
    ∧ disabledMathTM.RegisterTool sampleTool =
      .error "category is disabled: math"
    ∧ fullMathTM.RegisterTool sampleTool =
      .error "category math reached maximum tools limit: 1"
    ∧ ∃ tm₁, emptyMathTM.RegisterTool sampleTool = .ok tm₁ := by
  refine ⟨?_, ?_, ?_, ?_⟩
  · exact (C6_register_error_cases (ToolManager.mk []) sampleTool).1 rfl
  · exact (C6_register_error_cases disabledMathTM sampleTool).2.1 _ rfl rfl
  · exact (C6_register_error_cases fullMathTM sampleTool).2.2.1 _ rfl rfl
      (by decide)
  · exact (C6_register_error_cases emptyMathTM sampleTool).2.2.2 _ rfl rfl
      (by decide)

/-- **C9.** When a category holds exactly its configured maximum tool
count, registering a capability whose name already exists in that
category fails with the category-full error rather than overwriting
(the capacity check precedes the map insertion); the overwriting
insertion is reachable only while the category is strictly below its
maximum. -/
theorem C9_no_overwrite_at_capacity (tm : ToolManager) (tool : Tool) :
    (∀ cm, assocFind tm.categories tool.category = some cm →
      cm.enabled = true → cm.tools.length = cm.config.MaxTools →
      (assocFind cm.tools tool.name).isSome →
      tm.RegisterTool tool = .error ("category " ++ tool.category
        ++ " reached maximum tools limit: " ++ toString cm.config.MaxTools))
    ∧ (∀ tm₁, tm.RegisterTool tool = .ok tm₁ →
        ∀ cm, assocFind tm.categories tool.category = some cm →
          cm.tools.length < cm.config.MaxTools) := by
  constructor
  · intro cm h he hlen _
    unfold ToolManager.RegisterTool
    rw [h]
    simp [he, Nat.le_of_eq hlen.symm]
  · intro tm₁ hok cm h
    unfold ToolManager.RegisterTool at hok
    rw [h] at hok
    by_cases he : cm.enabled = false
    · simp [he] at hok
    · by_cases hfull : cm.config.MaxTools ≤ cm.tools.length
      · simp [he, hfull] at hok
      · omega

/-- Concrete witness for C9: a full category containing the same name
rejects re-registration, and a successful registration happens only
below capacity. -/
theorem C9_no_overwrite_at_capacity_witness :
    fullMathTM.RegisterTool sampleTool =
      .error "category math reached maximum tools limit: 1"
    ∧ ((emptyMathTM.RegisterTool sampleTool).isOk = true →
        ∀ cm, assocFind emptyMathTM.categories sampleTool.category = some cm →
          cm.tools.length < cm.config.MaxTools) := by
  constructor
  · exact (C9_no_overwrite_at_capacity fullMathTM sampleTool).1 _ rfl rfl rfl
      (by decide)
  · intro _
    intro cm h
    exact (C9_no_overwrite_at_capacity emptyMathTM sampleTool).2 _ rfl cm h

/-- **C4.** The effective deadline of an invocation is the minimum of
the caller deadline and `now +` the owning category's timeout when both
are set, whichever one is set when only one is set (a zero category
timeout imposes no category bound), and absent when neither is set; and
`CallTool` runs the resolved capability under exactly that deadline. -/
theorem C4_effective_deadline (tm : ToolManager) (now c t : Nat)
    (deadline : Option Nat) (name : String) (args : JValue) :
    (0 < t → applyCategoryTimeout (some c) now t = some (min c (now + t)))
    ∧ (0 < t → applyCategoryTimeout none now t = some (now + t))
    ∧ applyCategoryTimeout (some c) now 0 = some c
    ∧ applyCategoryTimeout none now 0 = none
    ∧ (∀ tool cm, findToolIn tm.categories name = some (tool, cm) →
        tm.CallTool now deadline name args =
          match tool.exec (applyCategoryTimeout deadline now cm.config.Timeout)
              args with
          | .error e => .error e
          | .ok result => .ok ⟨[⟨"text", result⟩]⟩) := by
  refine ⟨?_, ?_, ?_, ?_, ?_⟩
  · intro ht
    unfold applyCategoryTimeout contextWithTimeout
    simp [ht]
  · intro ht
    unfold applyCategoryTimeout contextWithTimeout
    simp [ht]
  · unfold applyCategoryTimeout
    simp
  · unfold applyCategoryTimeout
    simp
  · intro tool cm h
    unfold ToolManager.CallTool
    rw [h]

/-- Concrete witness for C4: both-set, caller-only, category-only and
neither-set cases at explicit numbers, plus the composed deadline on a
resolved call. -/
theorem C4_effective_deadline_witness :
    applyCategoryTimeout (some 20) 3 10 = some (min 20 (3 + 10))
    ∧ applyCategoryTimeout none 3 10 = some (3 + 10)
    ∧ applyCategoryTimeout (some 20) 3 0 = some 20
    ∧ applyCategoryTimeout none 3 0 = none
    ∧ fullMathTM.CallTool 3 (some 20) "t1" .null =
        match sampleTool.exec
            (applyCategoryTimeout (some 20) 3 fullMathCM.config.Timeout) .null with
        | .error e => .error e
        | .ok result => .ok ⟨[⟨"text", result⟩]⟩ := by
  have h := C4_effective_deadline fullMathTM 3 20 10 (some 20) "t1" JValue.null
  exact ⟨h.1 (by decide), h.2.1 (by decide), h.2.2.1, h.2.2.2.1,
    h.2.2.2.2 sampleTool fullMathCM rfl⟩

/-- **C8.** For a resolved capability that does not implement the
streaming interface, `CallToolStream` returns exactly the result and
error of `CallTool` on the same inputs (including the uniform text
envelope, produced inside `CallTool`) and invokes the emit callback
zero times. -/
theorem C8_stream_fallback (tm : ToolManager) (now : Nat)
    (deadline : Option Nat) (name : String) (args : JValue)
    (tool : Tool) (cm : CategoryManager)
    (hfind : findToolIn tm.categories name = some (tool, cm))
    (hns : tool.execStream = none) :
    tm.CallToolStream now deadline name args =
      (tm.CallTool now deadline name args, []) := by
  unfold ToolManager.CallToolStream
  simp only [hfind, hns]

/-- Concrete witness for C8: the registered non-streaming calculator
stand-in goes through the synchronous path with no emissions. -/
theorem C8_stream_fallback_witness :
    fullMathTM.CallToolStream 0 none "t1" .null =
      (fullMathTM.CallTool 0 none "t1" .null, []) :=
  C8_stream_fallback fullMathTM 0 none "t1" .null sampleTool fullMathCM rfl rfl

theorem findToolIn_eq_none (l : List (ToolCategory × CategoryManager))
    (name : String)
    (h : ∀ c cm, (c, cm) ∈ l → cm.enabled = true →
      assocFind cm.tools name = none) :
    findToolIn l name = none := by
  induction l with
  | nil => rfl
  | cons p rest ih =>
    obtain ⟨c, cm⟩ := p
    by_cases he : cm.enabled = true
    · have hn := h c cm (List.mem_cons_self _ _) he
      simp only [findToolIn, he, if_true, hn]
      exact ih fun c2 cm2 hm hen => h c2 cm2 (List.mem_cons_of_mem _ hm) hen
    · have he2 : cm.enabled = false := by
        revert he
        cases cm.enabled <;> simp
      simp [findToolIn, he2]
      exact ih fun c2 cm2 hm hen => h c2 cm2 (List.mem_cons_of_mem _ hm) hen

/-- **C7.** A name not present in any enabled category resolves to
nothing (whatever the enable/disable state of the categories);
`CallTool` then fails with the tool-not-found error, and the `tools/call`
request path turns that into an error envelope whose message is exactly
the string "tool not found: " followed by the name. -/
theorem C7_unknown_tool (tm : ToolManager) (now : Nat)
    (deadline : Option Nat) (name : String) (args : JValue) :
    ((∀ c cm, (c, cm) ∈ tm.categories → cm.enabled = true →
        assocFind cm.tools name = none) →
      findToolIn tm.categories name = none)
    ∧ (findToolIn tm.categories name = none →
        tm.CallTool now deadline name args =
          .error ("tool not found: " ++ name))
    ∧ (findToolIn tm.categories name = none →
        toolsCallResponse tm now deadline name args =
          .inl ⟨-32603, "tool not found: " ++ name⟩) := by
  refine ⟨findToolIn_eq_none _ _, ?_, ?_⟩
  · intro h
    unfold ToolManager.CallTool
    rw [h]
  · intro h
    unfold toolsCallResponse ToolManager.CallTool
    rw [h]

/-- Concrete witness for C7: the name "foo" is unregistered in a
registry holding an enabled math category with one tool; the call fails
and the envelope message is exactly "tool not found: foo". -/
theorem C7_unknown_tool_witness :
    findToolIn fullMathTM.categories "foo" = none
    ∧ fullMathTM.CallTool 0 none "foo" .null = .error "tool not found: foo"
    ∧ toolsCallResponse fullMathTM 0 none "foo" .null =
        .inl ⟨-32603, "tool not found: foo"⟩ := by
  have h := C7_unknown_tool fullMathTM 0 none "foo" JValue.null
  have hfind : findToolIn fullMathTM.categories "foo" = none := by
    refine h.1 ?_
    intro c cm hm he
    replace hm : (c, cm) ∈ [(CategoryMath, fullMathCM)] := hm
    rw [List.mem_singleton] at hm
    rw [Prod.mk.injEq] at hm
    obtain ⟨rfl, rfl⟩ := hm
    rfl
  exact ⟨hfind, h.2.1 hfind, h.2.2 hfind⟩

/-- **C3.** Every streaming `tools/call` that reaches the stream
dispatcher produces an event sequence that ends with exactly one
terminal event (`done` with the final result on success, `error` with
the failure message otherwise): the sequence splits as non-terminal
events followed by a single terminal one, so there is never more than
one terminal event and nothing is written after it. -/
theorem C3_stream_exactly_one_terminal (tm : ToolManager) (now : Nat)
    (deadline : Option Nat) (req : List (String × JValue)) :
    ∃ pre last, handleStreamToolsCall tm now deadline req = pre ++ [last]
      ∧ last.isTerminal = true
      ∧ ∀ e ∈ pre, e.isTerminal = false := by
  unfold handleStreamToolsCall
  cases h1 : (assocFind req "params").bind JValue.asObj with
  | none =>
    exact ⟨[], .error "Invalid params", by simp, rfl, by simp⟩
  | some params =>
    cases h2 : (assocFind params "name").bind JValue.asStr with
    | none =>
      exact ⟨[], .error "Missing or invalid tool name", by simp [h2], rfl, by simp⟩
    | some toolName =>
      have hpre : ∀ e ∈ (SEvent.toolCall toolName ::
          ((tm.CallToolStream now deadline toolName
            ((assocFind params "arguments").getD .null)).2.map
              fun p => SEvent.content p.1 p.2)), e.isTerminal = false := by
        intro e he
        rcases List.mem_cons.mp he with rfl | hm
        · rfl
        · obtain ⟨p, _, rfl⟩ := List.mem_map.mp hm
          rfl
      cases h3 : (tm.CallToolStream now deadline toolName
          ((assocFind params "arguments").getD .null)).1 with
      | error e =>
        refine ⟨_, .error e, ?_, rfl, hpre⟩
        simp [h2, h3]
      | ok r =>
        refine ⟨_, .done r, ?_, rfl, hpre⟩
        simp [h2, h3]

/-! ## Association-list lemmas -/

theorem assocFind_mem {β : Type _} {l : List (String × β)} {k : String} {v : β}
    (h : assocFind l k = some v) : (k, v) ∈ l := by
  induction l with
  | nil => simp [assocFind] at h
  | cons p rest ih =>
    obtain ⟨a, b⟩ := p
    by_cases ha : a = k
    · subst ha
      simp [assocFind] at h
      subst h
      exact List.mem_cons_self _ _
    · simp [assocFind, ha] at h
      exact List.mem_cons_of_mem _ (ih h)

theorem assocFind_isSome_of_mem {β : Type _} {l : List (String × β)}
    {k : String} {v : β} (h : (k, v) ∈ l) : (assocFind l k).isSome := by
  induction l with
  | nil => simp at h
  | cons p rest ih =>
    obtain ⟨a, b⟩ := p
    by_cases ha : a = k
    · simp [assocFind, ha]
    · rcases List.mem_cons.mp h with heq | hm
      · rw [Prod.mk.injEq] at heq
        exact absurd heq.1.symm ha
      · simp only [assocFind, ha, if_false]
        exact ih hm

theorem assocFind_eq_none_of_not_mem {β : Type _} {l : List (String × β)}
    {k : String} (h : k ∉ l.map Prod.fst) : assocFind l k = none := by
  induction l with
  | nil => rfl
  | cons p rest ih =>
    obtain ⟨a, b⟩ := p
    simp only [List.map_cons, List.mem_cons] at h
    push_neg at h
    simp only [assocFind, Ne.symm h.1, if_false]
    exact ih h.2

theorem not_mem_of_assocFind_eq_none {β : Type _} {l : List (String × β)}
    {k : String} (h : assocFind l k = none) : k ∉ l.map Prod.fst := by
  intro hk
  obtain ⟨p, hp, hfst⟩ := List.mem_map.mp hk
  obtain ⟨a, b⟩ := p
  simp only at hfst
  subst hfst
  have := assocFind_isSome_of_mem hp
  rw [h] at this
  simp at this

theorem assocFind_of_mem_nodup {β : Type _} {l : List (String × β)}
    (hnd : (l.map Prod.fst).Nodup) {k : String} {v : β} (h : (k, v) ∈ l) :
    assocFind l k = some v := by
  induction l with
  | nil => simp at h
  | cons p rest ih =>
    obtain ⟨a, b⟩ := p
    simp only [List.map_cons, List.nodup_cons] at hnd
    rcases List.mem_cons.mp h with heq | hm
    · rw [Prod.mk.injEq] at heq
      obtain ⟨h1, h2⟩ := heq
      subst h1
      subst h2
      simp [assocFind]
    · have hak : a ≠ k := by
        intro hak
        subst hak
        exact hnd.1 (List.mem_map.mpr ⟨(a, v), hm, rfl⟩)
      simp only [assocFind, hak, if_false]
      exact ih hnd.2 hm

theorem assocUpdate_map_fst {β : Type _} (l : List (String × β)) (k : String)
    (v : β) : (assocUpdate l k v).map Prod.fst = l.map Prod.fst := by
  induction l with
  | nil => rfl
  | cons p rest ih =>
    obtain ⟨a, b⟩ := p
    by_cases ha : a = k
    · subst ha
      simp only [assocUpdate, List.map_cons] at ih ⊢
      simp [ih]
    · simp only [assocUpdate, List.map_cons] at ih ⊢
      simp [ha, ih]

theorem mem_assocUpdate {β : Type _} {l : List (String × β)} {k : String}
    {v : β} {p : String × β} (h : p ∈ assocUpdate l k v) :
    (p ∈ l ∧ p.1 ≠ k) ∨ p = (k, v) := by
  obtain ⟨q, hq, heq⟩ := List.mem_map.mp h
  by_cases hk : q.1 = k
  · right
    rw [← heq]
    simp [hk]
  · left
    rw [← heq]
    simp only [hk, if_false]
    exact ⟨hq, hk⟩

theorem assocFind_assocUpdate_self {β : Type _} {l : List (String × β)}
    {k : String} {v : β} (h : (assocFind l k).isSome) :
    assocFind (assocUpdate l k v) k = some v := by
  induction l with
  | nil => simp [assocFind] at h
  | cons p rest ih =>
    obtain ⟨a, b⟩ := p
    show assocFind ((if a = k then (k, v) else (a, b)) :: assocUpdate rest k v) k
        = some v
    by_cases ha : a = k
    · rw [if_pos ha]
      show (if k = k then some v else assocFind (assocUpdate rest k v) k) = some v
      rw [if_pos rfl]
    · rw [if_neg ha]
      show (if a = k then some b else assocFind (assocUpdate rest k v) k) = some v
      rw [if_neg ha]
      simp only [assocFind, ha, if_false] at h
      exact ih h

theorem assocFind_assocUpdate_ne {β : Type _} (l : List (String × β))
    (k : String) (v : β) (q : String) (h : q ≠ k) :
    assocFind (assocUpdate l k v) q = assocFind l q := by
  induction l with
  | nil => rfl
  | cons p rest ih =>
    obtain ⟨a, b⟩ := p
    show assocFind ((if a = k then (k, v) else (a, b)) :: assocUpdate rest k v) q
        = assocFind ((a, b) :: rest) q
    by_cases ha : a = k
    · rw [if_pos ha]
      show (if k = q then some v else assocFind (assocUpdate rest k v) q)
          = (if a = q then some b else assocFind rest q)
      rw [if_neg (Ne.symm h), if_neg (ha ▸ Ne.symm h)]
      exact ih
    · rw [if_neg ha]
      show (if a = q then some b else assocFind (assocUpdate rest k v) q)
          = (if a = q then some b else assocFind rest q)
      by_cases haq : a = q
      · rw [if_pos haq, if_pos haq]
      · rw [if_neg haq, if_neg haq]
        exact ih

theorem mem_assocUpdate_self {β : Type _} {l : List (String × β)} {k : String}
    (v : β) (h : (assocFind l k).isSome) : (k, v) ∈ assocUpdate l k v :=
  assocFind_mem (assocFind_assocUpdate_self h)

theorem mem_assocInsert_self {β : Type _} (l : List (String × β)) (k : String)
    (v : β) : (k, v) ∈ assocInsert l k v := by
  unfold assocInsert
  by_cases h : (assocFind l k).isSome
  · simp only [h, if_true]
    exact mem_assocUpdate_self v h
  · simp only [h, if_false]
    exact List.mem_append_right _ (List.mem_singleton.mpr rfl)

theorem mem_assocInsert {β : Type _} {l : List (String × β)} {k : String}
    {v : β} {p : String × β} (h : p ∈ assocInsert l k v) :
    (p ∈ l ∧ p.1 ≠ k) ∨ p = (k, v) := by
  unfold assocInsert at h
  by_cases hs : (assocFind l k).isSome
  · simp only [hs, if_true] at h
    exact mem_assocUpdate h
  · simp only [hs, if_false] at h
    rcases List.mem_append.mp h with hm | hm
    · left
      refine ⟨hm, ?_⟩
      intro hk
      have hnone : assocFind l k = none := by
        revert hs
        cases assocFind l k <;> simp
      have := not_mem_of_assocFind_eq_none hnone
      exact this (List.mem_map.mpr ⟨p, hm, hk⟩)
    · right
      exact List.mem_singleton.mp hm

theorem assocInsert_map_fst_nodup {β : Type _} {l : List (String × β)}
    (hnd : (l.map Prod.fst).Nodup) (k : String) (v : β) :
    ((assocInsert l k v).map Prod.fst).Nodup := by
  unfold assocInsert
  by_cases hs : (assocFind l k).isSome
  · simp only [hs, if_true]
    rw [assocUpdate_map_fst]
    exact hnd
  · have hnone : assocFind l k = none := by
      revert hs
      cases assocFind l k <;> simp
    rw [hnone]
    simp only [Option.isSome_none, Bool.false_eq_true, if_false]
    rw [List.map_append]
    simp only [List.map_cons, List.map_nil]
    have hk := not_mem_of_assocFind_eq_none hnone
    simp [List.nodup_append, hnd, hk]

/-! ## Registry well-formedness

Invariants that hold for every registry the source can build: map keys
are unique (Go maps), every tool is stored in the map of its declared
category under its own name (`RegisterTool` stores
`categoryMgr.tools[tool.Name()] = tool` in `tm.categories[tool.Category()]`). -/

structure ToolManager.WF (tm : ToolManager) : Prop where
  catNodup : (tm.categories.map Prod.fst).Nodup
  toolsNodup : ∀ c cm, (c, cm) ∈ tm.categories → (cm.tools.map Prod.fst).Nodup
  toolsNamed : ∀ c cm, (c, cm) ∈ tm.categories → ∀ k t, (k, t) ∈ cm.tools →
    t.name = k ∧ t.category = c

theorem mem_GetTools {tm : ToolManager} {c : ToolCategory}
    {cm : CategoryManager} (hmem : (c, cm) ∈ tm.categories)
    (he : cm.enabled = true) {k : String} {t : Tool} (ht : (k, t) ∈ cm.tools) :
    (⟨t.name, t.description, t.category, true⟩ : ToolInfo) ∈ tm.GetTools := by
  unfold ToolManager.GetTools
  rw [List.mem_flatMap]
  refine ⟨(c, cm), ?_, ?_⟩
  · rw [List.mem_filter]
    exact ⟨hmem, by simpa using he⟩
  · rw [List.mem_map]
    exact ⟨(k, t), ht, rfl⟩

theorem GetTools_inv {tm : ToolManager} {info : ToolInfo}
    (h : info ∈ tm.GetTools) :
    ∃ c cm k t, (c, cm) ∈ tm.categories ∧ cm.enabled = true ∧
      (k, t) ∈ cm.tools ∧
      info = ⟨t.name, t.description, t.category, true⟩ := by
  unfold ToolManager.GetTools at h
  rw [List.mem_flatMap] at h
  obtain ⟨p, hp, hinfo⟩ := h
  obtain ⟨c, cm⟩ := p
  rw [List.mem_filter] at hp
  rw [List.mem_map] at hinfo
  obtain ⟨q, hq, hinfo⟩ := hinfo
  obtain ⟨k, t⟩ := q
  exact ⟨c, cm, k, t, hp.1, by simpa using hp.2, hq, hinfo.symm⟩

/-- **C5.** The tool listing returns exactly the tools of currently
enabled categories: under the registry invariants, a name is listed
under a category iff that category is enabled and holds the name; a
successful registration makes the tool listed; disabling its category
removes every tool of that category from the listing; and re-enabling
the category makes a previously listed tool listed again. -/
theorem C5_listing_iff_enabled (tm : ToolManager) (hwf : tm.WF) (n : String)
    (c : ToolCategory) (tool : Tool) :
    ((∃ info ∈ tm.GetTools, info.Name = n ∧ info.Category = c) ↔
      ∃ cm, assocFind tm.categories c = some cm ∧ cm.enabled = true ∧
        (assocFind cm.tools n).isSome)
    ∧ (∀ tm₁, tm.RegisterTool tool = .ok tm₁ →
        ∃ info ∈ tm₁.GetTools,
          info.Name = tool.name ∧ info.Category = tool.category)
    ∧ (∀ tm₂, tm.DisableCategory c = .ok tm₂ →
        ∀ info ∈ tm₂.GetTools, info.Category ≠ c)
    ∧ (∀ tm₂ tm₃, (∃ info ∈ tm.GetTools, info.Name = n ∧ info.Category = c) →
        tm.DisableCategory c = .ok tm₂ → tm₂.EnableCategory c = .ok tm₃ →
        ∃ info ∈ tm₃.GetTools, info.Name = n ∧ info.Category = c) := by
  have hchar : (∃ info ∈ tm.GetTools, info.Name = n ∧ info.Category = c) ↔
      ∃ cm, assocFind tm.categories c = some cm ∧ cm.enabled = true ∧
        (assocFind cm.tools n).isSome := by
    constructor
    · rintro ⟨info, hinfo, hn, hc⟩
      obtain ⟨c₀, cm₀, k, t, hmem, he, ht, rfl⟩ := GetTools_inv hinfo
      obtain ⟨hname, hcat⟩ := hwf.toolsNamed c₀ cm₀ hmem k t ht
      simp only at hn hc
      refine ⟨cm₀, ?_, he, ?_⟩
      · rw [← hc, hcat]
        exact assocFind_of_mem_nodup hwf.catNodup hmem
      · rw [← hn, hname]
        exact assocFind_isSome_of_mem ht
    · rintro ⟨cm, hfind, he, hsome⟩
      obtain ⟨t, ht⟩ := Option.isSome_iff_exists.mp hsome
      have hmem := assocFind_mem hfind
      have htm := assocFind_mem ht
      obtain ⟨hname, hcat⟩ := hwf.toolsNamed c cm hmem n t htm
      exact ⟨⟨t.name, t.description, t.category, true⟩,
        mem_GetTools hmem he htm, hname, hcat⟩
  refine ⟨hchar, ?_, ?_, ?_⟩
  · intro tm₁ hok
    unfold ToolManager.RegisterTool at hok
    cases hfc : assocFind tm.categories tool.category with
    | none => rw [hfc] at hok; simp at hok
    | some cm =>
      rw [hfc] at hok
      by_cases he : cm.enabled = false
      · simp [he] at hok
      · by_cases hfull : cm.config.MaxTools ≤ cm.tools.length
        · simp [he, hfull] at hok
        · have he2 : cm.enabled = true := by
            revert he
            cases cm.enabled <;> simp
          simp only [if_neg he, if_neg hfull, Except.ok.injEq] at hok
          subst hok
          have hmem : (tool.category,
              { cm with tools := assocInsert cm.tools tool.name tool }) ∈
              assocUpdate tm.categories tool.category
                { cm with tools := assocInsert cm.tools tool.name tool } :=
            mem_assocUpdate_self _ (by rw [hfc]; rfl)
          exact ⟨⟨tool.name, tool.description, tool.category, true⟩,
            mem_GetTools hmem he2 (mem_assocInsert_self cm.tools tool.name tool),
            rfl, rfl⟩
  · intro tm₂ hdis info hinfo
    unfold ToolManager.DisableCategory at hdis
    cases hfc : assocFind tm.categories c with
    | none => rw [hfc] at hdis; simp at hdis
    | some cm =>
      rw [hfc] at hdis
      simp only [Except.ok.injEq] at hdis
      subst hdis
      obtain ⟨c₀, cm₀, k, t, hmem, he, ht, rfl⟩ := GetTools_inv hinfo
      rcases mem_assocUpdate hmem with ⟨horig, hne⟩ | heq
      · obtain ⟨_, hcat⟩ := hwf.toolsNamed c₀ cm₀ horig k t ht
        simpa [hcat] using hne
      · rw [Prod.mk.injEq] at heq
        obtain ⟨_, hcm⟩ := heq
        rw [hcm] at he
        simp at he
  · intro tm₂ tm₃ hlisted hdis hen
    obtain ⟨cm, hfind, he, hsome⟩ := hchar.mp hlisted
    unfold ToolManager.DisableCategory at hdis
    rw [hfind] at hdis
    simp only [Except.ok.injEq] at hdis
    subst hdis
    unfold ToolManager.EnableCategory at hen
    have hfind₂ : assocFind
        (assocUpdate tm.categories c { cm with enabled := false }) c =
        some { cm with enabled := false } :=
      assocFind_assocUpdate_self (by rw [hfind]; rfl)
    rw [hfind₂] at hen
    simp only [Except.ok.injEq] at hen
    subst hen
    have hmem₃ : (c, { cm with enabled := true }) ∈
        assocUpdate (assocUpdate tm.categories c { cm with enabled := false }) c
          { { cm with enabled := false } with enabled := true } :=
      mem_assocUpdate_self _ (by rw [hfind₂]; rfl)
    obtain ⟨t, ht⟩ := Option.isSome_iff_exists.mp hsome
    have htm : (n, t) ∈ cm.tools := assocFind_mem ht
    obtain ⟨hname, hcat⟩ :=
      hwf.toolsNamed c cm (assocFind_mem hfind) n t htm
    exact ⟨⟨t.name, t.description, t.category, true⟩,
      mem_GetTools hmem₃ rfl htm, hname, hcat⟩

theorem emptyMathTM_WF : emptyMathTM.WF := by
  refine ⟨?_, ?_, ?_⟩
  · simp [emptyMathTM]
  · intro c cm hm
    replace hm : (c, cm) ∈
      [(CategoryMath,
        ({ tools := [], enabled := true, config := sampleConfig } :
          CategoryManager))] := hm
    rw [List.mem_singleton, Prod.mk.injEq] at hm
    obtain ⟨rfl, rfl⟩ := hm
    simp
  · intro c cm hm k t ht
    replace hm : (c, cm) ∈
      [(CategoryMath,
        ({ tools := [], enabled := true, config := sampleConfig } :
          CategoryManager))] := hm
    rw [List.mem_singleton, Prod.mk.injEq] at hm
    obtain ⟨rfl, rfl⟩ := hm
    simp at ht

theorem fullMathTM_WF : fullMathTM.WF := by
  refine ⟨?_, ?_, ?_⟩
  · simp [fullMathTM]
  · intro c cm hm
    replace hm : (c, cm) ∈ [(CategoryMath, fullMathCM)] := hm
    rw [List.mem_singleton, Prod.mk.injEq] at hm
    obtain ⟨rfl, rfl⟩ := hm
    simp [fullMathCM]
  · intro c cm hm k t ht
    replace hm : (c, cm) ∈ [(CategoryMath, fullMathCM)] := hm
    rw [List.mem_singleton, Prod.mk.injEq] at hm
    obtain ⟨rfl, rfl⟩ := hm
    replace ht : (k, t) ∈ [(sampleTool.name, sampleTool)] := ht
    rw [List.mem_singleton, Prod.mk.injEq] at ht
    obtain ⟨hk, rfl⟩ := ht
    exact ⟨hk.symm, rfl⟩

/-- Concrete witness for C5: the registered tool is listed while its
category is enabled, a fresh registration becomes listed, disabling the
math category empties its part of the listing, and re-enabling restores
the entry. -/
theorem C5_listing_iff_enabled_witness :
    (∃ info ∈ fullMathTM.GetTools,
      info.Name = "t1" ∧ info.Category = CategoryMath)
    ∧ (∃ tm₁, emptyMathTM.RegisterTool sampleTool = .ok tm₁ ∧
        ∃ info ∈ tm₁.GetTools,
          info.Name = sampleTool.name ∧ info.Category = sampleTool.category)
    ∧ (∃ tm₂, fullMathTM.DisableCategory CategoryMath = .ok tm₂ ∧
        (∀ info ∈ tm₂.GetTools, info.Category ≠ CategoryMath) ∧
        ∃ tm₃, tm₂.EnableCategory CategoryMath = .ok tm₃ ∧
          ∃ info ∈ tm₃.GetTools,
            info.Name = "t1" ∧ info.Category = CategoryMath) := by
  have h1 := C5_listing_iff_enabled fullMathTM fullMathTM_WF "t1"
    CategoryMath sampleTool
  have h2 := C5_listing_iff_enabled emptyMathTM emptyMathTM_WF "t1"
    CategoryMath sampleTool
  refine ⟨?_, ?_, ?_⟩
  · exact h1.1.mpr ⟨fullMathCM, rfl, rfl, rfl⟩
  · exact ⟨_, rfl, h2.2.1 _ rfl⟩
  · exact ⟨_, rfl, h1.2.2.1 _ rfl, _, rfl,
      h1.2.2.2 _ _ (h1.1.mpr ⟨fullMathCM, rfl, rfl, rfl⟩) rfl rfl⟩

/-! ## StreamTextProcessor (internal/tools/stream_text_processor.go)

`parseArguments` receives the decoded arguments object
(`map[string]interface{}` after `json.Unmarshal`; the unmarshal-failure
branch for non-object bodies is outside this embedding).  The result of
`Execute` is kept structured (`Result` as a decoded value) rather than
as marshalled bytes; `json.Marshal`/`json.Unmarshal` round-tripping in
`ExecuteStream` is the identity on this representation.  Go
`len(text)` is the UTF-8 byte length; `strings.ToLower`/`ToUpper` are
approximated by the ASCII case maps (the difference is irrelevant to
the properties proved). -/

structure StreamTextArgs where
  Text : String
  Operation : String
  deriving Repr, DecidableEq

structure StreamTextResult where
  OriginalText : String
  Result : JValue
  Operation : String

/-- `strings.Fields`: whitespace-separated fields, empty runs dropped. -/
def goFields (s : String) : List String :=
  (s.split Char.isWhitespace).filter fun w => w ≠ ""

/-- `strings.Split(s, "\n")`. -/
def goLines (s : String) : List String :=
  s.splitOn "\n"

/-- The rune-reversal loop of the "reverse" operation. -/
def goReverse (s : String) : String :=
  ⟨s.data.reverse⟩

/-- `parseArguments`: take `"text"`/`"operation"` when they are strings
(`"operation"` defaulting to "analyze"), then reject an empty text. -/
def parseArguments (args : List (String × JValue)) :
    Except String StreamTextArgs :=
  let text := match assocFind args "text" with
    | some (.str s) => s
    | _ => ""
  let op := match assocFind args "operation" with
    | some (.str s) => s
    | _ => "analyze"
  if text = "" then .error "text parameter is required"
  else .ok { Text := text, Operation := op }

namespace StreamTextProcessor

/-- `StreamTextProcessor.Execute`. -/
def Execute (ctx : Option Nat) (args : List (String × JValue)) :
    Except String StreamTextResult :=
  match parseArguments args with
  | .error e => .error e
  | .ok ta =>
    if ta.Operation = "split" then
      .ok ⟨ta.Text, .arr ((goFields ta.Text).map .str), ta.Operation⟩
    else if ta.Operation = "reverse" then
      .ok ⟨ta.Text, .str (goReverse ta.Text), ta.Operation⟩
    else if ta.Operation = "count" then
      .ok ⟨ta.Text, .obj
        [("characters", .num (ta.Text.utf8ByteSize : Int)),
         ("words", .num ((goFields ta.Text).length : Int)),
         ("lines", .num ((goLines ta.Text).length : Int))], ta.Operation⟩
    else if ta.Operation = "analyze" then
      .ok ⟨ta.Text, .obj
        [("length", .num (ta.Text.utf8ByteSize : Int)),
         ("word_count", .num ((goFields ta.Text).length : Int)),
         ("line_count", .num ((goLines ta.Text).length : Int)),
         ("has_uppercase", .bool (ta.Text.toLower != ta.Text)),
         ("has_lowercase", .bool (ta.Text.toUpper != ta.Text))], ta.Operation⟩
    else .error ("unsupported operation: " ++ ta.Operation)

/-- `StreamTextProcessor.ExecuteStream`: the first component collects
the `(content, index)` callback invocations in order, the second is the
returned result.  The trailing default branch mirrors the source and is
unreachable after a successful `Execute`. -/
def ExecuteStream (ctx : Option Nat) (args : List (String × JValue)) :
    List (String × Nat) × Except String StreamTextResult :=
  match parseArguments args with
  | .error e => ([], .error e)
  | .ok ta =>
    let pre : List (String × Nat) :=
      [("开始文本处理...", 0),
       ("输入文本长度: " ++ toString ta.Text.utf8ByteSize ++ " 字符", 1),
       ("处理操作: " ++ ta.Operation, 2)]
    match Execute ctx args with
    | .error e => (pre ++ [("处理失败: " ++ e, 3)], .error e)
    | .ok sr =>
      if ta.Operation = "split" then
        let ws := goFields ta.Text
        (pre ++ ("正在分割文本...", 3) ::
          (ws.enum.map fun p =>
            ("单词 " ++ toString (p.1 + 1) ++ ": " ++ p.2, 4 + p.1)) ++
          [("文本分割完成", 4 + ws.length), ("处理完成！", 100)], .ok sr)
      else if ta.Operation = "reverse" then
        (pre ++ [("正在反转文本...", 3), ("文本反转完成", 4),
          ("结果: " ++ goReverse ta.Text, 5), ("处理完成！", 100)], .ok sr)
      else if ta.Operation = "count" then
        (pre ++ [("正在统计文本信息...", 3),
          ("统计完成: " ++ toString ta.Text.utf8ByteSize ++ " 字符, "
            ++ toString (goFields ta.Text).length ++ " 单词, "
            ++ toString (goLines ta.Text).length ++ " 行", 4),
          ("处理完成！", 100)], .ok sr)
      else if ta.Operation = "analyze" then
        (pre ++ [("正在分析文本特征...", 3), ("文本分析完成", 4),
          ("处理完成！", 100)], .ok sr)
      else
        (pre ++ [("错误：不支持的操作类型 " ++ ta.Operation, 3)],
          .error ("unsupported operation: " ++ ta.Operation))

end StreamTextProcessor

/-- **C10.** For every arguments object whose "text" field is absent,
not a string, or the empty string, `parseArguments` — and with it both
`Execute` and `ExecuteStream` — fails with the error "text parameter is
required" regardless of the requested operation, and `ExecuteStream`
invokes the emit callback zero times. -/
theorem C10_text_required (ctx : Option Nat) (args : List (String × JValue))
    (h : ∀ s, assocFind args "text" = some (.str s) → s = "") :
    parseArguments args = .error "text parameter is required"
    ∧ StreamTextProcessor.Execute ctx args =
        .error "text parameter is required"
    ∧ StreamTextProcessor.ExecuteStream ctx args =
        ([], .error "text parameter is required") := by
  have htext : (match assocFind args "text" with
      | some (.str s) => s
      | _ => "") = "" := by
    cases hf : assocFind args "text" with
    | none => rfl
    | some v =>
      cases v with
      | str s => exact h s hf
      | null => rfl
      | bool b => rfl
      | num m => rfl
      | arr es => rfl
      | obj fs => rfl
  have hparse : parseArguments args = .error "text parameter is required" := by
    unfold parseArguments
    simp [htext]
  refine ⟨hparse, ?_, ?_⟩
  · unfold StreamTextProcessor.Execute
    rw [hparse]
  · unfold StreamTextProcessor.ExecuteStream
    rw [hparse]

/-- Concrete witness for C10: the text field absent, non-string, and
empty, each rejected with no emission. -/
theorem C10_text_required_witness :
    StreamTextProcessor.Execute none [("operation", .str "split")] =
      .error "text parameter is required"
    ∧ StreamTextProcessor.ExecuteStream none [("text", .num 5)] =
        ([], .error "text parameter is required")
    ∧ StreamTextProcessor.ExecuteStream none [("text", .str "")] =
        ([], .error "text parameter is required") := by
  refine ⟨(C10_text_required none _ ?_).2.1, (C10_text_required none _ ?_).2.2,
    (C10_text_required none _ ?_).2.2⟩
  · intro s hs
    rw [show assocFind [("operation", JValue.str "split")] "text" = none
      from rfl] at hs
    cases hs
  · intro s hs
    rw [show assocFind [("text", JValue.num 5)] "text" = some (JValue.num 5)
      from rfl] at hs
    simp at hs
  · intro s hs
    rw [show assocFind [("text", JValue.str "")] "text" =
      some (JValue.str "") from rfl] at hs
    simp only [Option.some.injEq, JValue.str.injEq] at hs
    exact hs.symm

end WeaveToolkit
